import Mathlib

/-!
Verification of the merkle module (src/consensus/merkle.cpp).

The module has five functions over vectors of `uint256` hash values:
`ComputeMerkleRoot` (bottom-up level fold with a CVE-2012-2459 mutation
flag), `CalcTreeWidth` and `CalcTreeHeight` (tree geometry arithmetic),
`CalcHash` (recursive positional node hasher guarded by an assert on the
empty vector), and `findDiffLeaf` (root-to-leaf descent locating the first
differing leaf of two equal-height trees).

Modelling choices:

* `uint256` values form the free algebra `Hash256`: `leaf v` is an
  arbitrary 256-bit constant and `node l r` is the two-child combine
  `Hash(left, right)` (double SHA-256 in the source). Treating the combine
  as a free constructor is exactly the "assuming no double-SHA256
  collisions" hypothesis stated in the source comment: distinct
  combinations never collide, and equal trees are equal values.
  `uint256()` (all zero bytes) is the designated constant `zeroHash`.
* `size_t` and `uint64_t` quantities are `Nat`. The arithmetic in
  `CalcTreeWidth` and `CalcTreeHeight` cannot overflow for any vector that
  fits in memory, so those are plain `Nat` operations; the one place where
  unsigned wraparound is reachable and observable, the `--height`
  pre-decrement entering the descent loop of `findDiffLeaf`, is modelled
  explicitly modulo `2 ^ 64` (`descentStart`).
* Fallible code returns `Except`: the failed `assert(leaves != 0)` in
  `CalcHash` is `CalcErr.assertFail`, the failed `assert(height == height2)`
  in `findDiffLeaf` likewise, and an out-of-bounds vector access (undefined
  behaviour in C++) is `CalcErr.oob`.
-/

namespace Merkle

/-- Model of `uint256` hash values under the no-collision assumption the
source states: `leaf v` is an arbitrary 256-bit constant (`v` its numeric
value), `node l r` the combined hash of two children. -/
inductive Hash256 where
  | leaf : Nat → Hash256
  | node : Hash256 → Hash256 → Hash256
  deriving DecidableEq, Inhabited

/-- Model of `uint256()`: the all-zero 256-bit value. -/
def zeroHash : Hash256 := Hash256.leaf 0

/-- The two-input combine `Hash(left.begin(), left.end(), right.begin(),
right.end())` of the source (double SHA-256 over the 64-byte
concatenation), modelled as the free constructor. -/
def Hash (a b : Hash256) : Hash256 := Hash256.node a b

/-- Error outcomes of the fallible functions: a failed `assert`
(`assertFail`), or an out-of-bounds vector access (`oob`, undefined
behaviour in the C++). -/
inductive CalcErr where
  | assertFail : CalcErr
  | oob : CalcErr
  deriving DecidableEq

/-- The duplicate-scan loop of `ComputeMerkleRoot`:
`for (pos = 0; pos + 1 < hashes.size(); pos += 2)
   if (hashes[pos] == hashes[pos + 1]) mutation = true;`
True iff some even-aligned adjacent pair is equal. A lone trailing element
(odd length) is never examined, since `pos + 1 < size` fails there. -/
def hasEqualPair : List Hash256 → Bool
  | a :: b :: rest => decide (a = b) || hasEqualPair rest
  | _ => false

/-- The odd-level padding `if (hashes.size() & 1)
hashes.push_back(hashes.back());`. -/
def padOdd (hashes : List Hash256) : List Hash256 :=
  if hashes.length % 2 = 1 then hashes ++ [hashes.getLastD zeroHash] else hashes

/-- The batch combine `SHA256D64(...)` followed by
`hashes.resize(hashes.size() / 2)`: hash each adjacent pair into one
value. Called on even-length levels only (after `padOdd`). -/
def combinePairs : List Hash256 → List Hash256
  | a :: b :: rest => Hash a b :: combinePairs rest
  | _ => []

/-- One iteration of the `while (hashes.size() > 1)` body, after the
duplicate scan: pad an odd level, then combine adjacent pairs. -/
def levelStep (hashes : List Hash256) : List Hash256 :=
  combinePairs (padOdd hashes)

/-- Each level fold halves the node count, rounding down (the source calls
it on even lengths only). -/
theorem combinePairs_length : ∀ l : List Hash256, (combinePairs l).length = l.length / 2
  | [] => by simp [combinePairs]
  | [_] => by simp [combinePairs]
  | _ :: _ :: rest => by
      simp [combinePairs, combinePairs_length rest]; omega

/-- Padding then combining halves the level, rounding up. -/
theorem levelStep_length (hashes : List Hash256) :
    (levelStep hashes).length = (hashes.length + 1) / 2 := by
  unfold levelStep padOdd
  by_cases h : hashes.length % 2 = 1
  · rw [if_pos h, combinePairs_length]
    simp only [List.length_append, List.length_cons, List.length_nil]
  · rw [if_neg h, combinePairs_length]
    omega

/-- Strictly fewer nodes after one fold of a level with two or more
nodes. -/
theorem levelStep_length_lt {hashes : List Hash256} (h : 1 < hashes.length) :
    (levelStep hashes).length < hashes.length := by
  rw [levelStep_length]; omega

/-- The `while (hashes.size() > 1)` loop of `ComputeMerkleRoot`, with the
sticky local `bool mutation` as accumulator: scan the current level for an
equal adjacent pair, pad and combine, repeat. On exit
(`hashes.size() <= 1`) the source stores the flag and returns `uint256()`
on the empty vector, else `hashes[0]`. -/
def ComputeMerkleRootAux : List Hash256 → Bool → Hash256 × Bool
  | [], mutation => (zeroHash, mutation)
  | [x], mutation => (x, mutation)
  | x :: y :: rest, mutation =>
      ComputeMerkleRootAux (levelStep (x :: y :: rest))
        (mutation || hasEqualPair (x :: y :: rest))
  termination_by hashes _ => hashes.length
  decreasing_by exact levelStep_length_lt (by simp)

/-- `ComputeMerkleRoot(hashes, mutated)` with the out-parameter modelled as
the second component of the result. The source computes the duplicate scan
only when `mutated != nullptr`; passing the null pointer skips the scan and
leaves the first component unchanged, so the model always computes both. -/
def ComputeMerkleRoot (hashes : List Hash256) : Hash256 × Bool :=
  ComputeMerkleRootAux hashes false

/-- `CalcTreeWidth(height, leaves)`:
`(leaves + ((uint64_t)1 << height) - 1) >> height`. -/
def CalcTreeWidth (height leaves : Nat) : Nat :=
  (leaves + 2 ^ height - 1) / 2 ^ height

/-- The `while (leaves > 1)` loop of `CalcTreeHeight`: round an odd count
up, halve, count one level; the height of a tree on `leaves` leaves. -/
def CalcTreeHeightAux (leaves : Nat) : Nat :=
  if h : 1 < leaves then
    CalcTreeHeightAux ((if leaves % 2 = 1 then leaves + 1 else leaves) / 2) + 1
  else 0
  termination_by leaves
  decreasing_by split <;> omega

/-- `CalcTreeHeight(hashes)`: the loop above on `hashes.size()`. -/
def CalcTreeHeight (hashes : List Hash256) : Nat :=
  CalcTreeHeightAux hashes.length

/-- `CalcHash(height, pos, hashs)`: the recursive positional node hasher.
Every call first executes `assert(leaves != 0)`; at height zero it returns
`hashs[pos]` (out of bounds is undefined behaviour, modelled `oob`);
otherwise it hashes the left child with the right child when
`pos * 2 + 1 < CalcTreeWidth(height - 1, leaves)`, else with a copy of the
left child. -/
def CalcHash : Nat → Nat → List Hash256 → Except CalcErr Hash256
  | 0, pos, hashs =>
      if hashs.length = 0 then .error .assertFail
      else
        match hashs[pos]? with
        | some v => .ok v
        | none => .error .oob
  | h + 1, pos, hashs =>
      if hashs.length = 0 then .error .assertFail
      else
        match CalcHash h (pos * 2) hashs with
        | .error e => .error e
        | .ok left =>
            if pos * 2 + 1 < CalcTreeWidth h hashs.length then
              match CalcHash h (pos * 2 + 1) hashs with
              | .error e => .error e
              | .ok right => .ok (Hash left right)
            else .ok (Hash left left)

/-- The first value taken by the `uint64_t` loop counter of
`while (--height)` in `findDiffLeaf`: the pre-decrement wraps modulo
`2 ^ 64`, so a starting height of `0` enters the loop at `2 ^ 64 - 1`
instead of skipping it. -/
def descentStart (height : Nat) : Nat :=
  (height + (2 ^ 64 - 1)) % 2 ^ 64

/-- The descent of `findDiffLeaf`: the argument counts the heights still to
visit (`t, t - 1, ..., 1`), comparing the two positional hashes at each; a
differing pair descends left (`index * 2`), an equal pair descends right
skipping one slot (`index * 2 + 2`). At height zero the loop has exited and
the leaf-level comparison bumps the index by one when the two leaves are
equal. -/
def findDiffLeafLoop (hashs1 hashs2 : List Hash256) (index : Nat) :
    Nat → Except CalcErr Nat
  | 0 =>
      match CalcHash 0 index hashs1 with
      | .error e => .error e
      | .ok x =>
          match CalcHash 0 index hashs2 with
          | .error e => .error e
          | .ok y => .ok (if x = y then index + 1 else index)
  | t + 1 =>
      match CalcHash (t + 1) index hashs1 with
      | .error e => .error e
      | .ok x =>
          match CalcHash (t + 1) index hashs2 with
          | .error e => .error e
          | .ok y =>
              findDiffLeafLoop hashs1 hashs2
                (if x = y then index * 2 + 2 else index * 2) t

/-- `findDiffLeaf(hashs1, hashs2)`: equal roots short-circuit to index `0`
before any height check; otherwise `assert(height == height2)` and then the
descent, entering the loop at the wrapped pre-decremented height. -/
def findDiffLeaf (hashs1 hashs2 : List Hash256) : Except CalcErr Nat :=
  if (ComputeMerkleRoot hashs1).1 = (ComputeMerkleRoot hashs2).1 then .ok 0
  else
    if CalcTreeHeight hashs1 = CalcTreeHeight hashs2 then
      findDiffLeafLoop hashs1 hashs2 0 (descentStart (CalcTreeHeight hashs1))
    else .error .assertFail

/-- Reference value of the positional hasher over a single-leaf vector:
at every level the single node is hashed with a copy of itself. -/
def dupIter : Nat → Hash256 → Hash256
  | 0, x => x
  | t + 1, x => Hash (dupIter t x) (dupIter t x)

/-! ## Tree geometry -/

/-- At level zero the width is the leaf count. -/
theorem CalcTreeWidth_zero (n : Nat) : CalcTreeWidth 0 n = n := by
  simp [CalcTreeWidth]

/-- The ceiling division written with floor division, away from zero. -/
theorem CalcTreeWidth_eq_of_pos {n : Nat} (h : 1 ≤ n) (height : Nat) :
    CalcTreeWidth height n = (n - 1) / 2 ^ height + 1 := by
  have hp : 0 < 2 ^ height := Nat.pos_pow_of_pos height (by omega)
  have he : n + 2 ^ height - 1 = (n - 1) + 2 ^ height := by omega
  rw [CalcTreeWidth, he, Nat.add_div_right _ hp]

/-- A single leaf has width one at every height. -/
theorem CalcTreeWidth_one (height : Nat) : CalcTreeWidth height 1 = 1 := by
  rw [CalcTreeWidth_eq_of_pos (by omega)]
  simp

/-- A nonempty tree has at least one node at every height. -/
theorem CalcTreeWidth_pos {n : Nat} (h : 1 ≤ n) (height : Nat) :
    1 ≤ CalcTreeWidth height n := by
  rw [CalcTreeWidth_eq_of_pos h]
  exact Nat.le_add_left 1 _

/-- Raising the level by one equals halving the leaf count, rounding up. -/
theorem CalcTreeWidth_succ_level (height n : Nat) :
    CalcTreeWidth (height + 1) n = CalcTreeWidth height ((n + 1) / 2) := by
  rcases Nat.eq_zero_or_pos n with hn | hn
  · subst hn
    have h1 : CalcTreeWidth (height + 1) 0 = 0 := by
      rw [CalcTreeWidth]
      exact Nat.div_eq_of_lt (by have := Nat.pos_pow_of_pos (height + 1) (show 0 < 2 by omega); omega)
    have h2 : CalcTreeWidth height 0 = 0 := by
      rw [CalcTreeWidth]
      exact Nat.div_eq_of_lt (by have := Nat.pos_pow_of_pos height (show 0 < 2 by omega); omega)
    simpa [h1] using h2.symm
  · have hm : 1 ≤ (n + 1) / 2 := by omega
    rw [CalcTreeWidth_eq_of_pos hn, CalcTreeWidth_eq_of_pos hm]
    have h1 : (n + 1) / 2 - 1 = (n - 1) / 2 := by omega
    have h2 : (2 : Nat) ^ (height + 1) = 2 * 2 ^ height := by
      rw [Nat.pow_succ]; omega
    rw [h1, h2, Nat.mul_comm 2 (2 ^ height), ← Nat.div_div_eq_div_mul, Nat.div_div_eq_div_mul,
      Nat.mul_comm (2 ^ height) 2, ← Nat.div_div_eq_div_mul]

/-- The width one level up is the current width halved, rounding up. -/
theorem CalcTreeWidth_succ (height n : Nat) :
    CalcTreeWidth (height + 1) n = (CalcTreeWidth height n + 1) / 2 := by
  rcases Nat.eq_zero_or_pos n with hn | hn
  · subst hn
    have h1 : CalcTreeWidth (height + 1) 0 = 0 := by
      rw [CalcTreeWidth]
      exact Nat.div_eq_of_lt (by have := Nat.pos_pow_of_pos (height + 1) (show 0 < 2 by omega); omega)
    have h2 : CalcTreeWidth height 0 = 0 := by
      rw [CalcTreeWidth]
      exact Nat.div_eq_of_lt (by have := Nat.pos_pow_of_pos height (show 0 < 2 by omega); omega)
    rw [h1, h2]
  · rw [CalcTreeWidth_eq_of_pos hn, CalcTreeWidth_eq_of_pos hn]
    have h2 : (2 : Nat) ^ (height + 1) = 2 ^ height * 2 := Nat.pow_succ 2 height
    rw [h2, ← Nat.div_div_eq_div_mul]
    omega

/-- The height loop leaves a count of zero or one untouched. -/
theorem CalcTreeHeightAux_le_one {n : Nat} (h : n ≤ 1) : CalcTreeHeightAux n = 0 := by
  rw [CalcTreeHeightAux]
  simp [show ¬ 1 < n by omega]

/-- One iteration of the height loop: round up to even and halve. -/
theorem CalcTreeHeightAux_succ {n : Nat} (h : 1 < n) :
    CalcTreeHeightAux n = CalcTreeHeightAux ((n + 1) / 2) + 1 := by
  rw [CalcTreeHeightAux]
  have he : (if n % 2 = 1 then n + 1 else n) / 2 = (n + 1) / 2 := by
    split <;> omega
  simp [h, he]

/-- The top level of a nonempty tree has exactly one node. -/
theorem CalcTreeWidth_CalcTreeHeightAux {n : Nat} (h : 1 ≤ n) :
    CalcTreeWidth (CalcTreeHeightAux n) n = 1 := by
  by_cases h1 : 1 < n
  · rw [CalcTreeHeightAux_succ h1, CalcTreeWidth_succ_level]
    exact CalcTreeWidth_CalcTreeHeightAux (by omega)
  · have hn : n = 1 := by omega
    subst hn
    rw [CalcTreeHeightAux_le_one (by omega), CalcTreeWidth_zero]
  termination_by n
  decreasing_by omega

/-! ## The positional hasher: unfolding, the assert, bounds -/

/-- Unfolding of the height-zero case past the assert. -/
theorem CalcHash_zero (pos : Nat) (hashes : List Hash256) (hl : hashes.length ≠ 0) :
    CalcHash 0 pos hashes =
      match hashes[pos]? with
      | some v => .ok v
      | none => .error .oob := by
  simp only [CalcHash]
  rw [if_neg hl]

/-- The height-zero case returns the indexed leaf when in bounds. -/
theorem CalcHash_zero_ok {hashes : List Hash256} {pos : Nat} (h : pos < hashes.length) :
    CalcHash 0 pos hashes = .ok hashes[pos] := by
  rw [CalcHash_zero pos hashes (by omega), List.getElem?_eq_getElem h]

/-- Unfolding of the recursive case past the assert. -/
theorem CalcHash_succ (h pos : Nat) (hashes : List Hash256) (hl : hashes.length ≠ 0) :
    CalcHash (h + 1) pos hashes =
      match CalcHash h (pos * 2) hashes with
      | .error e => .error e
      | .ok left =>
          if pos * 2 + 1 < CalcTreeWidth h hashes.length then
            match CalcHash h (pos * 2 + 1) hashes with
            | .error e => .error e
            | .ok right => .ok (Hash left right)
          else .ok (Hash left left) := by
  conv_lhs => simp only [CalcHash]
  rw [if_neg hl]

/-- On the empty vector the assert fires at every height and position. -/
theorem CalcHash_nil (height pos : Nat) :
    CalcHash height pos ([] : List Hash256) = .error .assertFail := by
  cases height <;> simp [CalcHash]

/-- On a nonempty vector the assert never fires, at any position. -/
theorem CalcHash_ne_assertFail {hashes : List Hash256} (h : hashes ≠ []) :
    ∀ height pos, CalcHash height pos hashes ≠ Except.error CalcErr.assertFail := by
  have hl : hashes.length ≠ 0 := fun e => h (List.length_eq_zero.mp e)
  intro height
  induction height with
  | zero =>
    intro pos
    rw [CalcHash_zero pos hashes hl]
    cases hashes[pos]? <;> simp
  | succ k ih =>
    intro pos
    rw [CalcHash_succ k pos hashes hl]
    cases hrec : CalcHash k (pos * 2) hashes with
    | error e =>
      cases e
      · exact absurd hrec (ih _)
      · simp
    | ok left =>
      dsimp only
      by_cases hg : pos * 2 + 1 < CalcTreeWidth k hashes.length
      · rw [if_pos hg]
        cases hrec2 : CalcHash k (pos * 2 + 1) hashes with
        | error e =>
          cases e
          · exact absurd hrec2 (ih _)
          · simp
        | ok right => simp
      · rw [if_neg hg]
        simp

/-- In-bounds totality: below the width at its height, the positional
hasher on a nonempty vector always produces a hash (every leaf access the
recursion performs stays strictly below the vector length). -/
theorem CalcHash_ok_of_lt :
    ∀ (height : Nat) {hashes : List Hash256}, hashes.length ≠ 0 →
      ∀ {pos : Nat}, pos < CalcTreeWidth height hashes.length →
        ∃ v, CalcHash height pos hashes = Except.ok v := by
  intro height
  induction height with
  | zero =>
    intro hashes hl pos hp
    rw [CalcTreeWidth_zero] at hp
    exact ⟨_, CalcHash_zero_ok hp⟩
  | succ k ih =>
    intro hashes hl pos hp
    rw [CalcTreeWidth_succ] at hp
    obtain ⟨left, hleft⟩ := ih hl (show pos * 2 < CalcTreeWidth k hashes.length by omega)
    rw [CalcHash_succ k pos hashes hl, hleft]
    dsimp only
    by_cases hg : pos * 2 + 1 < CalcTreeWidth k hashes.length
    · obtain ⟨right, hright⟩ := ih hl hg
      rw [if_pos hg, hright]
      exact ⟨_, rfl⟩
    · rw [if_neg hg]
      exact ⟨_, rfl⟩

/-! ## Indexing one folded level -/

/-- Indexing the pairwise combination: node `i` hashes the elements at
`i * 2` and `i * 2 + 1` of the level below. -/
theorem combinePairs_getElem? : ∀ (l : List Hash256) (i : Nat),
    (combinePairs l)[i]? =
      match l[i * 2]?, l[i * 2 + 1]? with
      | some a, some b => some (Hash a b)
      | _, _ => none
  | [], i => by simp [combinePairs]
  | [a], 0 => by simp [combinePairs]
  | [a], i + 1 => by
      have e1 : (i + 1) * 2 = i * 2 + 1 + 1 := by omega
      have e2 : (i + 1) * 2 + 1 = i * 2 + 1 + 1 + 1 := by omega
      simp [combinePairs, e1, e2]
  | a :: b :: rest, 0 => by simp [combinePairs]
  | a :: b :: rest, i + 1 => by
      have e1 : (i + 1) * 2 = i * 2 + 1 + 1 := by omega
      have e2 : (i + 1) * 2 + 1 = i * 2 + 1 + 1 + 1 := by omega
      simp only [combinePairs, e1, e2, List.getElem?_cons_succ]
      exact combinePairs_getElem? rest i

/-- Below the original length, padding does not change an element. -/
theorem padOdd_getElem?_lt {hashes : List Hash256} {k : Nat} (h : k < hashes.length) :
    (padOdd hashes)[k]? = hashes[k]? := by
  unfold padOdd
  split
  · rw [List.getElem?_append, if_pos h]
  · rfl

/-- The padded slot of an odd level repeats its last element. -/
theorem padOdd_getElem?_pad {hashes : List Hash256} (hodd : hashes.length % 2 = 1) :
    (padOdd hashes)[hashes.length]? = hashes[hashes.length - 1]? := by
  have hne : hashes ≠ [] := by
    intro e; rw [e] at hodd; simp at hodd
  have hlen : 0 < hashes.length := List.length_pos.mpr hne
  have hgl : hashes.getLastD zeroHash = hashes.getLast hne := by
    rw [List.getLastD_eq_getLast?, List.getLast?_eq_getLast _ hne]
    rfl
  unfold padOdd
  rw [if_pos hodd, List.getElem?_append, if_neg (by omega), Nat.sub_self,
    List.getElem?_cons_zero, hgl, List.getLast_eq_getElem,
    List.getElem?_eq_getElem (by omega)]

/-- A full pair of the level below becomes its combined hash. -/
theorem levelStep_getElem?_lt {hashes : List Hash256} {pos : Nat}
    (h : pos * 2 + 1 < hashes.length) :
    (levelStep hashes)[pos]? =
      match hashes[pos * 2]?, hashes[pos * 2 + 1]? with
      | some a, some b => some (Hash a b)
      | _, _ => none := by
  unfold levelStep
  rw [combinePairs_getElem?, padOdd_getElem?_lt (by omega), padOdd_getElem?_lt h]

/-- The unpaired last element of an odd level is hashed with itself. -/
theorem levelStep_getElem?_last {hashes : List Hash256} {pos : Nat}
    (he : pos * 2 + 1 = hashes.length) :
    (levelStep hashes)[pos]? =
      match hashes[pos * 2]? with
      | some a => some (Hash a a)
      | none => none := by
  have hodd : hashes.length % 2 = 1 := by omega
  unfold levelStep
  rw [combinePairs_getElem?, padOdd_getElem?_lt (by omega), he, padOdd_getElem?_pad hodd,
    show hashes.length - 1 = pos * 2 by omega]
  cases hashes[pos * 2]? <;> rfl

/-! ## One level of positional hashing equals one level of folding -/

/-- Raising the height of an in-bounds positional query by one over the
unfolded level equals querying the folded level: both apply the same
duplication rule at the seam. -/
theorem CalcHash_levelStep :
    ∀ (h : Nat) {hashes : List Hash256}, 1 < hashes.length →
      ∀ {pos : Nat}, pos < CalcTreeWidth (h + 1) hashes.length →
        CalcHash (h + 1) pos hashes = CalcHash h pos (levelStep hashes) := by
  intro h
  induction h with
  | zero =>
    intro hashes h2 pos hp
    have hl : hashes.length ≠ 0 := by omega
    have hls : (levelStep hashes).length ≠ 0 := by rw [levelStep_length]; omega
    rw [CalcTreeWidth_succ, CalcTreeWidth_zero] at hp
    have hlt : pos * 2 < hashes.length := by omega
    rw [CalcHash_succ 0 pos hashes hl, CalcHash_zero_ok hlt, CalcTreeWidth_zero]
    dsimp only
    rw [CalcHash_zero pos (levelStep hashes) hls]
    by_cases hg : pos * 2 + 1 < hashes.length
    · rw [if_pos hg, CalcHash_zero_ok hg, levelStep_getElem?_lt hg,
        List.getElem?_eq_getElem hlt, List.getElem?_eq_getElem hg]
    · have he : pos * 2 + 1 = hashes.length := by omega
      rw [if_neg hg, levelStep_getElem?_last he, List.getElem?_eq_getElem hlt]
  | succ k ih =>
    intro hashes h2 pos hp
    have hl : hashes.length ≠ 0 := by omega
    have hls : (levelStep hashes).length ≠ 0 := by rw [levelStep_length]; omega
    have hpl : pos * 2 < CalcTreeWidth (k + 1) hashes.length := by
      rw [CalcTreeWidth_succ] at hp; omega
    have hwlvl : CalcTreeWidth k (levelStep hashes).length
        = CalcTreeWidth (k + 1) hashes.length := by
      rw [levelStep_length, CalcTreeWidth_succ_level]
    rw [CalcHash_succ (k + 1) pos hashes hl, CalcHash_succ k pos (levelStep hashes) hls,
      ih h2 hpl, hwlvl]
    cases CalcHash k (pos * 2) (levelStep hashes) with
    | error e => rfl
    | ok left =>
      dsimp only
      by_cases hg : pos * 2 + 1 < CalcTreeWidth (k + 1) hashes.length
      · rw [if_pos hg, if_pos hg, ih h2 hg]
      · rw [if_neg hg, if_neg hg]

/-! ## The root fold -/

/-- The root component of the fold does not depend on the mutation
accumulator: skipping the duplicate scan (a null `mutated`) returns the
same root. -/
theorem ComputeMerkleRootAux_fst :
    ∀ (hashes : List Hash256) (m : Bool),
      (ComputeMerkleRootAux hashes m).1 = (ComputeMerkleRootAux hashes false).1
  | [], _ => by rw [ComputeMerkleRootAux, ComputeMerkleRootAux]
  | [x], _ => by rw [ComputeMerkleRootAux, ComputeMerkleRootAux]
  | x :: y :: rest, m => by
      rw [ComputeMerkleRootAux, ComputeMerkleRootAux,
        ComputeMerkleRootAux_fst (levelStep (x :: y :: rest)) (m || _),
        ComputeMerkleRootAux_fst (levelStep (x :: y :: rest)) (false || _)]
  termination_by hashes _ => hashes.length
  decreasing_by all_goals exact levelStep_length_lt (by simp)

/-- Folding one level costs exactly one unit of tree height. -/
theorem CalcTreeHeight_levelStep {hashes : List Hash256} (h : 1 < hashes.length) :
    CalcTreeHeight hashes = CalcTreeHeight (levelStep hashes) + 1 := by
  rw [CalcTreeHeight, CalcTreeHeight, CalcTreeHeightAux_succ h, levelStep_length]

/-- The positional hasher applied at the top of the tree recomputes the
root the iterative fold returns, on every nonempty leaf vector. -/
theorem CalcHash_eq_root :
    ∀ (hashes : List Hash256), hashes ≠ [] →
      CalcHash (CalcTreeHeight hashes) 0 hashes = .ok (ComputeMerkleRoot hashes).1
  | [], h => absurd rfl h
  | [x], _ => by
      have h1 : CalcTreeHeight [x] = 0 := CalcTreeHeightAux_le_one (by simp)
      rw [h1, CalcHash_zero_ok (by simp), ComputeMerkleRoot, ComputeMerkleRootAux]
      rfl
  | x :: y :: rest, _ => by
      have h2 : 1 < (x :: y :: rest).length := by simp
      have hlvl : (levelStep (x :: y :: rest)) ≠ [] := by
        have := levelStep_length (x :: y :: rest)
        intro e
        rw [e] at this
        simp at this
        omega
      conv_rhs => rw [ComputeMerkleRoot, ComputeMerkleRootAux]
      rw [ComputeMerkleRootAux_fst (levelStep (x :: y :: rest)) (false || _),
        CalcTreeHeight_levelStep h2,
        CalcHash_levelStep _ h2 (CalcTreeWidth_pos (by omega) _),
        CalcHash_eq_root (levelStep (x :: y :: rest)) hlvl]
      rfl
  termination_by hashes _ => hashes.length
  decreasing_by all_goals exact levelStep_length_lt (by simp)

/-! ## The mutation flag on duplicate-free input -/

/-- The combine is injective under the no-collision assumption. -/
theorem Hash_inj {a b c d : Hash256} (h : Hash a b = Hash c d) : a = c ∧ b = d := by
  unfold Hash at h
  exact Hash256.node.inj h

/-- A duplicate-free level has no equal adjacent pair. -/
theorem hasEqualPair_of_nodup :
    ∀ {l : List Hash256}, l.Nodup → hasEqualPair l = false
  | [], _ => rfl
  | [_], _ => rfl
  | a :: b :: rest, h => by
      have hab : a ≠ b := by
        have := (List.nodup_cons.mp h).1
        intro e
        exact this (by rw [e]; exact List.mem_cons_self b rest)
      have hrest : rest.Nodup := ((List.nodup_cons.mp h).2 |> List.nodup_cons.mp).2
      rw [hasEqualPair, hasEqualPair_of_nodup hrest]
      simp [hab]

/-- Every combined node hashes two elements of the level below. -/
theorem combinePairs_mem :
    ∀ (l : List Hash256) {x : Hash256}, x ∈ combinePairs l →
      ∃ a b, a ∈ l ∧ b ∈ l ∧ x = Hash a b
  | [], _, hx => by simp [combinePairs] at hx
  | [_], _, hx => by simp [combinePairs] at hx
  | a :: b :: rest, x, hx => by
      rcases List.mem_cons.mp hx with he | hrest
      · exact ⟨a, b, by simp, by simp, he⟩
      · obtain ⟨c, d, hc, hd, he⟩ := combinePairs_mem rest hrest
        exact ⟨c, d, by simp [hc], by simp [hd], he⟩

/-- Combining a duplicate-free level yields a duplicate-free level: two
distinct pair positions have distinct left elements, so the combined
hashes differ by injectivity. -/
theorem combinePairs_nodup :
    ∀ {l : List Hash256}, l.Nodup → (combinePairs l).Nodup
  | [], _ => by simp [combinePairs]
  | [_], _ => by simp [combinePairs]
  | a :: b :: rest, h => by
      have ha : a ∉ b :: rest := (List.nodup_cons.mp h).1
      have hrest : rest.Nodup := ((List.nodup_cons.mp h).2 |> List.nodup_cons.mp).2
      rw [combinePairs, List.nodup_cons]
      refine ⟨fun hmem => ?_, combinePairs_nodup hrest⟩
      obtain ⟨c, d, hc, _, he⟩ := combinePairs_mem rest hmem
      obtain ⟨hac, _⟩ := Hash_inj he
      exact ha (List.mem_cons_of_mem b (hac ▸ hc))

/-- Pair combination splits across an even seam. -/
theorem combinePairs_append :
    ∀ (l l2 : List Hash256), l.length % 2 = 0 →
      combinePairs (l ++ l2) = combinePairs l ++ combinePairs l2
  | [], _, _ => rfl
  | [_], _, h => by simp at h
  | a :: b :: rest, l2, h => by
      have hr : rest.length % 2 = 0 := by simp at h; omega
      show Hash a b :: combinePairs (rest ++ l2)
          = Hash a b :: (combinePairs rest ++ combinePairs l2)
      exact congrArg _ (combinePairs_append rest l2 hr)

/-- Padding then combining a duplicate-free level yields a duplicate-free
level: the synthetic pad node hashes the last element with itself, and no
genuine pair can repeat that element on both sides. -/
theorem levelStep_nodup {hashes : List Hash256} (h : hashes.Nodup) :
    (levelStep hashes).Nodup := by
  unfold levelStep padOdd
  split
  · rename_i hodd
    have hne : hashes ≠ [] := by
      intro e; rw [e] at hodd; simp at hodd
    have hgl : hashes.getLastD zeroHash = hashes.getLast hne := by
      rw [List.getLastD_eq_getLast?, List.getLast?_eq_getLast _ hne]
      rfl
    have hsplit : hashes = hashes.dropLast ++ [hashes.getLast hne] :=
      (List.dropLast_append_getLast hne).symm
    have hu : hashes.dropLast.Nodup := h.sublist (List.dropLast_sublist hashes)
    have hz : hashes.getLast hne ∉ hashes.dropLast := by
      intro hmem
      have := List.nodup_append.mp (hsplit ▸ h)
      exact this.2.2 hmem (List.mem_singleton.mpr rfl)
    have heven : hashes.dropLast.length % 2 = 0 := by
      rw [List.length_dropLast]
      omega
    have hstep : hashes ++ [hashes.getLast hne]
        = hashes.dropLast ++ [hashes.getLast hne, hashes.getLast hne] := by
      conv_rhs => rw [show [hashes.getLast hne, hashes.getLast hne]
        = [hashes.getLast hne] ++ [hashes.getLast hne] from rfl]
      rw [← List.append_assoc, ← hsplit]
    rw [hgl, hstep, combinePairs_append _ _ heven]
    rw [List.nodup_append]
    refine ⟨combinePairs_nodup hu, by simp [combinePairs], ?_⟩
    intro x hx hx2
    obtain ⟨c, d, hc, _, he⟩ := combinePairs_mem _ hx
    have hxz : x = Hash (hashes.getLast hne) (hashes.getLast hne) := by
      simpa [combinePairs] using hx2
    obtain ⟨hzc, _⟩ := Hash_inj (hxz ▸ he).symm
    exact hz (hzc ▸ hc)
  · exact combinePairs_nodup h

/-- Folding a duplicate-free leaf vector never sets the mutation flag: the
scan runs before padding, so the synthetic duplicate of an odd level is
never compared, and combined levels stay duplicate-free. -/
theorem ComputeMerkleRootAux_snd_of_nodup :
    ∀ {hashes : List Hash256}, hashes.Nodup →
      (ComputeMerkleRootAux hashes false).2 = false
  | [], _ => by rw [ComputeMerkleRootAux]
  | [x], _ => by rw [ComputeMerkleRootAux]
  | x :: y :: rest, h => by
      rw [ComputeMerkleRootAux, hasEqualPair_of_nodup h]
      exact ComputeMerkleRootAux_snd_of_nodup (levelStep_nodup h)
  termination_by hashes => hashes.length
  decreasing_by exact levelStep_length_lt (by simp)

/-! ## The divergence locator -/

/-- A positive in-range height enters the descent at height minus one. -/
theorem descentStart_pos {h : Nat} (h1 : 1 ≤ h) (h2 : h < 2 ^ 64) :
    descentStart h = h - 1 := by
  have hp : (2 : Nat) ^ 64 = 18446744073709551616 := by norm_num
  unfold descentStart
  omega

/-- Height zero wraps: the unsigned pre-decrement enters the descent at
`2 ^ 64 - 1`. -/
theorem descentStart_zero : descentStart 0 = 2 ^ 64 - 1 := by
  have hp : (2 : Nat) ^ 64 = 18446744073709551616 := by norm_num
  unfold descentStart
  omega

/-- Folding a singleton returns the leaf with a clear flag. -/
theorem ComputeMerkleRoot_single (x : Hash256) : ComputeMerkleRoot [x] = (x, false) := by
  rw [ComputeMerkleRoot, ComputeMerkleRootAux]

/-- Over a single-leaf vector the positional query at index zero builds
the self-duplication tower: the width is one at every level, so the right
child is always a copy. -/
theorem CalcHash_single : ∀ (t : Nat) (x : Hash256), CalcHash t 0 [x] = .ok (dupIter t x)
  | 0, x => CalcHash_zero_ok (by simp)
  | t + 1, x => by
      rw [CalcHash_succ t 0 [x] (by simp)]
      simp only [Nat.zero_mul, CalcHash_single t x]
      rw [show ([x] : List Hash256).length = 1 from rfl, CalcTreeWidth_one]
      rw [if_neg (by omega)]
      rfl

/-- The self-duplication towers of distinct leaves stay distinct. -/
theorem dupIter_ne : ∀ (t : Nat) {x y : Hash256}, x ≠ y → dupIter t x ≠ dupIter t y
  | 0, _, _, hxy => hxy
  | t + 1, _, _, hxy => fun e => dupIter_ne t hxy (Hash_inj e).1

/-- Over two distinct single leaves every level of the descent compares
distinct tower hashes, so the index never leaves zero, however many
iterations the loop runs. -/
theorem findDiffLeafLoop_single :
    ∀ (t : Nat) {x y : Hash256}, x ≠ y → findDiffLeafLoop [x] [y] 0 t = .ok 0
  | 0, x, y, hxy => by
      rw [findDiffLeafLoop, CalcHash_zero_ok (by simp), CalcHash_zero_ok (by simp)]
      simp [hxy]
  | t + 1, x, y, hxy => by
      rw [findDiffLeafLoop, CalcHash_single (t + 1) x, CalcHash_single (t + 1) y]
      dsimp only
      rw [if_neg (dupIter_ne (t + 1) hxy)]
      exact findDiffLeafLoop_single t hxy

/-- On two distinct single leaves the locator does return index zero in
the idealised model, but only after entering the descent at the wrapped
height `2 ^ 64 - 1`. -/
theorem findDiffLeaf_single {x y : Hash256} (hxy : x ≠ y) :
    findDiffLeaf [x] [y] = .ok 0 := by
  unfold findDiffLeaf
  rw [ComputeMerkleRoot_single, ComputeMerkleRoot_single]
  rw [if_neg (by simpa using hxy)]
  rw [show CalcTreeHeight [x] = 0 from CalcTreeHeightAux_le_one (by simp),
    show CalcTreeHeight [y] = 0 from CalcTreeHeightAux_le_one (by simp),
    if_pos rfl, descentStart_zero]
  exact findDiffLeafLoop_single _ hxy

/-- Differing roots and differing heights reach and fail the height
assert. -/
theorem findDiffLeaf_assert {hs1 hs2 : List Hash256}
    (hroot : (ComputeMerkleRoot hs1).1 ≠ (ComputeMerkleRoot hs2).1)
    (hh : CalcTreeHeight hs1 ≠ CalcTreeHeight hs2) :
    findDiffLeaf hs1 hs2 = .error .assertFail := by
  unfold findDiffLeaf
  rw [if_neg hroot, if_neg hh]

/-! ## Concrete evaluations used by the descent and collision claims -/

/-- Eight leaves give tree height three. -/
theorem heightAux_eight : CalcTreeHeightAux 8 = 3 := by
  rw [CalcTreeHeightAux_succ (by norm_num), show ((8 : Nat) + 1) / 2 = 4 from by norm_num,
    CalcTreeHeightAux_succ (by norm_num), show ((4 : Nat) + 1) / 2 = 2 from by norm_num,
    CalcTreeHeightAux_succ (by norm_num), show ((2 : Nat) + 1) / 2 = 1 from by norm_num,
    CalcTreeHeightAux_le_one (by norm_num)]

/-- The descent on two eight-leaf vectors that differ exactly at index
five: the roots differ, the heights agree at three, the loop compares
levels two (equal quarters, go right to index two) and one (differing
pair, go left to index four), and the final leaf comparison at index four
finds equal leaves and bumps the answer to five. -/
theorem findDiffLeaf_eight (a0 a1 a2 a3 a4 a5 a6 a7 b5 : Hash256) (hxy : a5 ≠ b5) :
    findDiffLeaf [a0, a1, a2, a3, a4, a5, a6, a7] [a0, a1, a2, a3, a4, b5, a6, a7]
      = .ok 5 := by
  have hh1 : CalcTreeHeight [a0, a1, a2, a3, a4, a5, a6, a7] = 3 := by
    show CalcTreeHeightAux 8 = 3
    exact heightAux_eight
  have hh2 : CalcTreeHeight [a0, a1, a2, a3, a4, b5, a6, a7] = 3 := by
    show CalcTreeHeightAux 8 = 3
    exact heightAux_eight
  have hr1 := CalcHash_eq_root [a0, a1, a2, a3, a4, a5, a6, a7] (by simp)
  have hr2 := CalcHash_eq_root [a0, a1, a2, a3, a4, b5, a6, a7] (by simp)
  rw [hh1] at hr1
  rw [hh2] at hr2
  have hc1 : CalcHash 3 0 [a0, a1, a2, a3, a4, a5, a6, a7]
      = .ok (Hash (Hash (Hash a0 a1) (Hash a2 a3)) (Hash (Hash a4 a5) (Hash a6 a7))) := by
    simp [CalcHash, CalcTreeWidth]
  have hc2 : CalcHash 3 0 [a0, a1, a2, a3, a4, b5, a6, a7]
      = .ok (Hash (Hash (Hash a0 a1) (Hash a2 a3)) (Hash (Hash a4 b5) (Hash a6 a7))) := by
    simp [CalcHash, CalcTreeWidth]
  have hroot1 : (ComputeMerkleRoot [a0, a1, a2, a3, a4, a5, a6, a7]).1
      = Hash (Hash (Hash a0 a1) (Hash a2 a3)) (Hash (Hash a4 a5) (Hash a6 a7)) :=
    (Except.ok.inj (hc1.symm.trans hr1)).symm
  have hroot2 : (ComputeMerkleRoot [a0, a1, a2, a3, a4, b5, a6, a7]).1
      = Hash (Hash (Hash a0 a1) (Hash a2 a3)) (Hash (Hash a4 b5) (Hash a6 a7)) :=
    (Except.ok.inj (hc2.symm.trans hr2)).symm
  have hne : Hash (Hash (Hash a0 a1) (Hash a2 a3)) (Hash (Hash a4 a5) (Hash a6 a7))
      ≠ Hash (Hash (Hash a0 a1) (Hash a2 a3)) (Hash (Hash a4 b5) (Hash a6 a7)) := by
    intro e
    exact hxy (Hash_inj (Hash_inj (Hash_inj e).2).1).2
  unfold findDiffLeaf
  rw [if_neg (by rw [hroot1, hroot2]; exact hne)]
  rw [hh1, hh2, if_pos rfl]
  rw [show descentStart 3 = 2 from by
    rw [descentStart_pos (by norm_num) (by norm_num)]]
  rw [findDiffLeafLoop]
  rw [show CalcHash 2 0 [a0, a1, a2, a3, a4, a5, a6, a7]
      = .ok (Hash (Hash a0 a1) (Hash a2 a3)) from by simp [CalcHash, CalcTreeWidth],
    show CalcHash 2 0 [a0, a1, a2, a3, a4, b5, a6, a7]
      = .ok (Hash (Hash a0 a1) (Hash a2 a3)) from by simp [CalcHash, CalcTreeWidth]]
  dsimp only
  rw [if_pos rfl]
  show findDiffLeafLoop _ _ 2 1 = .ok 5
  rw [findDiffLeafLoop]
  rw [show CalcHash 1 2 [a0, a1, a2, a3, a4, a5, a6, a7] = .ok (Hash a4 a5) from by
      simp [CalcHash, CalcTreeWidth],
    show CalcHash 1 2 [a0, a1, a2, a3, a4, b5, a6, a7] = .ok (Hash a4 b5) from by
      simp [CalcHash, CalcTreeWidth]]
  dsimp only
  rw [if_neg (fun e => hxy (Hash_inj e).2)]
  show findDiffLeafLoop _ _ 4 0 = .ok 5
  rw [findDiffLeafLoop]
  rw [show CalcHash 0 4 [a0, a1, a2, a3, a4, a5, a6, a7] = .ok a4 from by simp [CalcHash],
    show CalcHash 0 4 [a0, a1, a2, a3, a4, b5, a6, a7] = .ok a4 from by simp [CalcHash]]
  dsimp only
  rw [if_pos rfl]

/-- Level-by-level evaluation of the fold on six distinct leaves: no scan
fires, and the odd third level pads its last combined node. -/
theorem ComputeMerkleRootAux_six (h1 h2 h3 h4 h5 h6 : Hash256)
    (h12 : h1 ≠ h2) (h34 : h3 ≠ h4) (h56 : h5 ≠ h6) (h13 : h1 ≠ h3) (h15 : h1 ≠ h5) :
    ComputeMerkleRootAux [h1, h2, h3, h4, h5, h6] false
      = (Hash (Hash (Hash h1 h2) (Hash h3 h4)) (Hash (Hash h5 h6) (Hash h5 h6)), false) := by
  have n1 : Hash h1 h2 ≠ Hash h3 h4 := fun e => h13 (Hash_inj e).1
  have n2 : Hash (Hash h1 h2) (Hash h3 h4) ≠ Hash (Hash h5 h6) (Hash h5 h6) :=
    fun e => h15 (Hash_inj (Hash_inj e).1).1
  rw [ComputeMerkleRootAux,
    show levelStep [h1, h2, h3, h4, h5, h6] = [Hash h1 h2, Hash h3 h4, Hash h5 h6] from by
      simp [levelStep, padOdd, combinePairs],
    show hasEqualPair [h1, h2, h3, h4, h5, h6] = false from by
      simp [hasEqualPair, h12, h34, h56],
    Bool.or_false]
  rw [ComputeMerkleRootAux,
    show levelStep [Hash h1 h2, Hash h3 h4, Hash h5 h6]
        = [Hash (Hash h1 h2) (Hash h3 h4), Hash (Hash h5 h6) (Hash h5 h6)] from by
      simp [levelStep, padOdd, combinePairs],
    show hasEqualPair [Hash h1 h2, Hash h3 h4, Hash h5 h6] = false from by
      simp [hasEqualPair, n1],
    Bool.or_false]
  rw [ComputeMerkleRootAux,
    show levelStep [Hash (Hash h1 h2) (Hash h3 h4), Hash (Hash h5 h6) (Hash h5 h6)]
        = [Hash (Hash (Hash h1 h2) (Hash h3 h4)) (Hash (Hash h5 h6) (Hash h5 h6))] from by
      simp [levelStep, padOdd, combinePairs],
    show hasEqualPair [Hash (Hash h1 h2) (Hash h3 h4), Hash (Hash h5 h6) (Hash h5 h6)]
        = false from by simp [hasEqualPair, n2],
    Bool.or_false]
  rw [ComputeMerkleRootAux]

/-- Level-by-level evaluation of the fold on the eight leaves obtained by
genuinely repeating the last two: the same root comes out, but the second
level holds the repeat as a complete adjacent pair and the scan fires. -/
theorem ComputeMerkleRootAux_eight (h1 h2 h3 h4 h5 h6 : Hash256)
    (h12 : h1 ≠ h2) (h34 : h3 ≠ h4) (h56 : h5 ≠ h6) :
    ComputeMerkleRootAux [h1, h2, h3, h4, h5, h6, h5, h6] false
      = (Hash (Hash (Hash h1 h2) (Hash h3 h4)) (Hash (Hash h5 h6) (Hash h5 h6)), true) := by
  rw [ComputeMerkleRootAux,
    show levelStep [h1, h2, h3, h4, h5, h6, h5, h6]
        = [Hash h1 h2, Hash h3 h4, Hash h5 h6, Hash h5 h6] from by
      simp [levelStep, padOdd, combinePairs],
    show hasEqualPair [h1, h2, h3, h4, h5, h6, h5, h6] = false from by
      simp [hasEqualPair, h12, h34, h56],
    Bool.or_false]
  rw [ComputeMerkleRootAux,
    show levelStep [Hash h1 h2, Hash h3 h4, Hash h5 h6, Hash h5 h6]
        = [Hash (Hash h1 h2) (Hash h3 h4), Hash (Hash h5 h6) (Hash h5 h6)] from by
      simp [levelStep, padOdd, combinePairs],
    show hasEqualPair [Hash h1 h2, Hash h3 h4, Hash h5 h6, Hash h5 h6] = true from by
      simp [hasEqualPair],
    Bool.false_or]
  rw [ComputeMerkleRootAux,
    show levelStep [Hash (Hash h1 h2) (Hash h3 h4), Hash (Hash h5 h6) (Hash h5 h6)]
        = [Hash (Hash (Hash h1 h2) (Hash h3 h4)) (Hash (Hash h5 h6) (Hash h5 h6))] from by
      simp [levelStep, padOdd, combinePairs],
    Bool.true_or]
  rw [ComputeMerkleRootAux]

/-! ## The claims -/

/-- Claim C1: for every nonempty leaf sequence `L`, the positional hasher
applied at the top of the tree agrees with the iterative fold:
`CalcHash (CalcTreeHeight L) 0 L` returns exactly the root component of
`ComputeMerkleRoot L`. -/
theorem claim_C1_root_agreement (hashes : List Hash256) (h : hashes ≠ []) :
    CalcHash (CalcTreeHeight hashes) 0 hashes = .ok (ComputeMerkleRoot hashes).1 :=
  CalcHash_eq_root hashes h

/-- Witness for C1 at a concrete three-leaf vector. -/
theorem claim_C1_witness :
    ([Hash256.leaf 0, Hash256.leaf 1, Hash256.leaf 2] : List Hash256) ≠ []
    ∧ CalcHash (CalcTreeHeight [Hash256.leaf 0, Hash256.leaf 1, Hash256.leaf 2]) 0
        [Hash256.leaf 0, Hash256.leaf 1, Hash256.leaf 2]
      = .ok (ComputeMerkleRoot [Hash256.leaf 0, Hash256.leaf 1, Hash256.leaf 2]).1 :=
  ⟨by simp, claim_C1_root_agreement [Hash256.leaf 0, Hash256.leaf 1, Hash256.leaf 2] (by simp)⟩

/-- Claim C2: for pairwise-distinct leaves `h1..h6`, the fold on
`[h1,...,h6]` and on `[h1,...,h6,h5,h6]` returns the same root, with the
mutation flag clear on the first and set on the second, so callers can
tell the two trees apart despite the root collision. -/
theorem claim_C2_collision_flag (h1 h2 h3 h4 h5 h6 : Hash256)
    (hnd : ([h1, h2, h3, h4, h5, h6] : List Hash256).Nodup) :
    (ComputeMerkleRoot [h1, h2, h3, h4, h5, h6]).1
        = (ComputeMerkleRoot [h1, h2, h3, h4, h5, h6, h5, h6]).1
    ∧ (ComputeMerkleRoot [h1, h2, h3, h4, h5, h6]).2 = false
    ∧ (ComputeMerkleRoot [h1, h2, h3, h4, h5, h6, h5, h6]).2 = true := by
  simp [List.nodup_cons] at hnd
  have h12 : h1 ≠ h2 := by tauto
  have h34 : h3 ≠ h4 := by tauto
  have h56 : h5 ≠ h6 := by tauto
  have h13 : h1 ≠ h3 := by tauto
  have h15 : h1 ≠ h5 := by tauto
  rw [ComputeMerkleRoot, ComputeMerkleRoot,
    ComputeMerkleRootAux_six h1 h2 h3 h4 h5 h6 h12 h34 h56 h13 h15,
    ComputeMerkleRootAux_eight h1 h2 h3 h4 h5 h6 h12 h34 h56]
  exact ⟨rfl, rfl, rfl⟩

/-- Witness for C2 at six concrete distinct leaves. -/
theorem claim_C2_witness :
    ([Hash256.leaf 1, Hash256.leaf 2, Hash256.leaf 3, Hash256.leaf 4, Hash256.leaf 5,
        Hash256.leaf 6] : List Hash256).Nodup
    ∧ ((ComputeMerkleRoot [Hash256.leaf 1, Hash256.leaf 2, Hash256.leaf 3, Hash256.leaf 4,
          Hash256.leaf 5, Hash256.leaf 6]).1
        = (ComputeMerkleRoot [Hash256.leaf 1, Hash256.leaf 2, Hash256.leaf 3, Hash256.leaf 4,
            Hash256.leaf 5, Hash256.leaf 6, Hash256.leaf 5, Hash256.leaf 6]).1
      ∧ (ComputeMerkleRoot [Hash256.leaf 1, Hash256.leaf 2, Hash256.leaf 3, Hash256.leaf 4,
          Hash256.leaf 5, Hash256.leaf 6]).2 = false
      ∧ (ComputeMerkleRoot [Hash256.leaf 1, Hash256.leaf 2, Hash256.leaf 3, Hash256.leaf 4,
          Hash256.leaf 5, Hash256.leaf 6, Hash256.leaf 5, Hash256.leaf 6]).2 = true) :=
  ⟨by decide, claim_C2_collision_flag (Hash256.leaf 1) (Hash256.leaf 2) (Hash256.leaf 3)
    (Hash256.leaf 4) (Hash256.leaf 5) (Hash256.leaf 6) (by decide)⟩

/-- Claim C3: two eight-leaf sequences equal everywhere except at index
five are separated by the locator, which returns index five: the descent
takes the right branch with the `index * 2 + 2` update once, the left
branch once, and the leaf-level increment lands on the divergent leaf. -/
theorem claim_C3_diff_at_five (a0 a1 a2 a3 a4 a5 a6 a7 b5 : Hash256) (h : a5 ≠ b5) :
    findDiffLeaf [a0, a1, a2, a3, a4, a5, a6, a7] [a0, a1, a2, a3, a4, b5, a6, a7]
      = .ok 5 :=
  findDiffLeaf_eight a0 a1 a2 a3 a4 a5 a6 a7 b5 h

/-- Witness for C3 at concrete leaves differing at index five. -/
theorem claim_C3_witness :
    Hash256.leaf 5 ≠ Hash256.leaf 55
    ∧ findDiffLeaf
        [Hash256.leaf 0, Hash256.leaf 1, Hash256.leaf 2, Hash256.leaf 3, Hash256.leaf 4,
          Hash256.leaf 5, Hash256.leaf 6, Hash256.leaf 7]
        [Hash256.leaf 0, Hash256.leaf 1, Hash256.leaf 2, Hash256.leaf 3, Hash256.leaf 4,
          Hash256.leaf 55, Hash256.leaf 6, Hash256.leaf 7] = .ok 5 :=
  ⟨by decide, claim_C3_diff_at_five (Hash256.leaf 0) (Hash256.leaf 1) (Hash256.leaf 2)
    (Hash256.leaf 3) (Hash256.leaf 4) (Hash256.leaf 5) (Hash256.leaf 6) (Hash256.leaf 7)
    (Hash256.leaf 55) (by decide)⟩

/-- Claim C4 counterexample: two sequences whose computed tree heights
differ (zero versus one) on which the locator returns a value instead of
failing, because the roots agree — the single leaf of the first vector is
the combined hash of the second — and the root-equality short-circuit
runs before the height assert. -/
theorem claim_C4_counterexample :
    CalcTreeHeight [Hash256.node (Hash256.leaf 0) (Hash256.leaf 1)]
        ≠ CalcTreeHeight [Hash256.leaf 0, Hash256.leaf 1]
    ∧ findDiffLeaf [Hash256.node (Hash256.leaf 0) (Hash256.leaf 1)]
        [Hash256.leaf 0, Hash256.leaf 1] = .ok 0 := by
  constructor
  · rw [show CalcTreeHeight [Hash256.node (Hash256.leaf 0) (Hash256.leaf 1)] = 0 from
      CalcTreeHeightAux_le_one (by simp)]
    rw [show CalcTreeHeight [Hash256.leaf 0, Hash256.leaf 1] = 1 from by
      simp [CalcTreeHeight, CalcTreeHeightAux_succ, CalcTreeHeightAux_le_one]]
    omega
  · have hroots : (ComputeMerkleRoot [Hash256.node (Hash256.leaf 0) (Hash256.leaf 1)]).1
        = (ComputeMerkleRoot [Hash256.leaf 0, Hash256.leaf 1]).1 := by
      simp [ComputeMerkleRoot, ComputeMerkleRootAux, levelStep, padOdd, combinePairs,
        hasEqualPair, Hash]
    unfold findDiffLeaf
    rw [if_pos hroots]

/-- Claim C4 as amended: when the two computed roots differ and the
computed tree heights differ, the locator fails the height assert and
never returns a result value. -/
theorem claim_C4_amended (hs1 hs2 : List Hash256)
    (hroot : (ComputeMerkleRoot hs1).1 ≠ (ComputeMerkleRoot hs2).1)
    (hh : CalcTreeHeight hs1 ≠ CalcTreeHeight hs2) :
    findDiffLeaf hs1 hs2 = .error .assertFail :=
  findDiffLeaf_assert hroot hh

/-- Witness for the amended C4: one leaf against two leaves with
differing roots. -/
theorem claim_C4_witness :
    (ComputeMerkleRoot [Hash256.leaf 0]).1
        ≠ (ComputeMerkleRoot [Hash256.leaf 1, Hash256.leaf 2]).1
    ∧ CalcTreeHeight [Hash256.leaf 0] ≠ CalcTreeHeight [Hash256.leaf 1, Hash256.leaf 2]
    ∧ findDiffLeaf [Hash256.leaf 0] [Hash256.leaf 1, Hash256.leaf 2]
        = .error .assertFail := by
  have h1 : (ComputeMerkleRoot [Hash256.leaf 0]).1
      ≠ (ComputeMerkleRoot [Hash256.leaf 1, Hash256.leaf 2]).1 := by
    simp [ComputeMerkleRoot, ComputeMerkleRootAux, levelStep, padOdd, combinePairs,
      hasEqualPair, Hash]
  have h2 : CalcTreeHeight [Hash256.leaf 0] ≠ CalcTreeHeight [Hash256.leaf 1, Hash256.leaf 2] := by
    simp [CalcTreeHeight, CalcTreeHeightAux_succ, CalcTreeHeightAux_le_one]
  exact ⟨h1, h2, claim_C4_amended _ _ h1 h2⟩

/-- Claim C5, the code evaluated at the failing input: on two distinct
single leaves (equal tree heights, both zero) the loop counter wraps — the
descent enters at `2 ^ 64 - 1`, which exceeds the tree height of zero the
claim allows — although the idealised model still arrives at index
zero. -/
theorem claim_C5_wrap_at_height_zero :
    CalcTreeHeight [Hash256.leaf 0] = 0
    ∧ descentStart (CalcTreeHeight [Hash256.leaf 0]) = 2 ^ 64 - 1
    ∧ findDiffLeaf [Hash256.leaf 0] [Hash256.leaf 1] = .ok 0 := by
  have h0 : CalcTreeHeight [Hash256.leaf 0] = 0 := CalcTreeHeightAux_le_one (by simp)
  refine ⟨h0, ?_, findDiffLeaf_single (by decide)⟩
  rw [h0, descentStart_zero]

/-- Claim C6: a leaf sequence of pairwise-distinct hashes, whatever its
length, folds with the mutation flag clear: the scan runs on the
pre-duplication pairs only, so the synthetic pad of an odd level is never
flagged. -/
theorem claim_C6_nodup_unmutated (hashes : List Hash256) (h : hashes.Nodup) :
    (ComputeMerkleRoot hashes).2 = false :=
  ComputeMerkleRootAux_snd_of_nodup h

/-- Witness for C6 at a concrete odd-length duplicate-free vector. -/
theorem claim_C6_witness :
    ([Hash256.leaf 0, Hash256.leaf 1, Hash256.leaf 2] : List Hash256).Nodup
    ∧ (ComputeMerkleRoot [Hash256.leaf 0, Hash256.leaf 1, Hash256.leaf 2]).2 = false :=
  ⟨by decide, claim_C6_nodup_unmutated [Hash256.leaf 0, Hash256.leaf 1, Hash256.leaf 2]
    (by decide)⟩

/-- Claim C7: the geometry functions are consistent: a nonempty vector has
exactly one node at its computed tree height, and at height zero the
width is the leaf count itself. -/
theorem claim_C7_geometry :
    (∀ hashes : List Hash256, hashes ≠ [] →
        CalcTreeWidth (CalcTreeHeight hashes) hashes.length = 1)
    ∧ ∀ n : Nat, CalcTreeWidth 0 n = n :=
  ⟨fun _ hne =>
    CalcTreeWidth_CalcTreeHeightAux
      (Nat.one_le_iff_ne_zero.mpr (fun e => hne (List.length_eq_zero.mp e))),
   CalcTreeWidth_zero⟩

/-- Witness for C7 at a concrete three-leaf vector. -/
theorem claim_C7_witness :
    ([Hash256.leaf 0, Hash256.leaf 1, Hash256.leaf 2] : List Hash256) ≠ []
    ∧ CalcTreeWidth (CalcTreeHeight [Hash256.leaf 0, Hash256.leaf 1, Hash256.leaf 2])
        ([Hash256.leaf 0, Hash256.leaf 1, Hash256.leaf 2] : List Hash256).length = 1 :=
  ⟨by simp, claim_C7_geometry.1 [Hash256.leaf 0, Hash256.leaf 1, Hash256.leaf 2] (by simp)⟩

/-- Claim C8: the fold on the empty sequence succeeds, returning the
all-zero hash with the mutation flag clear. -/
theorem claim_C8_empty :
    ComputeMerkleRoot ([] : List Hash256) = (zeroHash, false) := by
  rw [ComputeMerkleRoot, ComputeMerkleRootAux]

/-- Claim C9: the positional hasher on the empty vector fails its assert
at every height and position; on a nonempty vector with an in-width
position the assert never fires. -/
theorem claim_C9_assert :
    (∀ height pos : Nat, CalcHash height pos ([] : List Hash256) = .error .assertFail)
    ∧ ∀ (height pos : Nat) (hashes : List Hash256), hashes ≠ [] →
        pos < CalcTreeWidth height hashes.length →
        CalcHash height pos hashes ≠ .error .assertFail :=
  ⟨CalcHash_nil, fun height pos _ hne _ => CalcHash_ne_assertFail hne height pos⟩

/-- Witness for C9 at a concrete single-leaf vector and height two. -/
theorem claim_C9_witness :
    ([Hash256.leaf 7] : List Hash256) ≠ []
    ∧ 0 < CalcTreeWidth 2 ([Hash256.leaf 7] : List Hash256).length
    ∧ CalcHash 2 0 [Hash256.leaf 7] ≠ .error .assertFail :=
  ⟨by simp, by decide, claim_C9_assert.2 2 0 [Hash256.leaf 7] (by simp) (by decide)⟩

/-- Claim C10: under the in-bounds precondition — nonempty vector, height
at most the computed tree height, index below the width at that height —
the positional hasher is total: it returns a hash, every leaf access
staying strictly below the vector length. -/
theorem claim_C10_total_in_bounds (hashes : List Hash256) (hne : hashes ≠ [])
    (height : Nat) (_hh : height ≤ CalcTreeHeight hashes)
    (pos : Nat) (hp : pos < CalcTreeWidth height hashes.length) :
    ∃ v, CalcHash height pos hashes = Except.ok v :=
  CalcHash_ok_of_lt height (fun e => hne (List.length_eq_zero.mp e)) hp

/-- Witness for C10 at a concrete three-leaf vector, top of the tree. -/
theorem claim_C10_witness :
    ([Hash256.leaf 0, Hash256.leaf 1, Hash256.leaf 2] : List Hash256) ≠ []
    ∧ 2 ≤ CalcTreeHeight [Hash256.leaf 0, Hash256.leaf 1, Hash256.leaf 2]
    ∧ 0 < CalcTreeWidth 2 ([Hash256.leaf 0, Hash256.leaf 1, Hash256.leaf 2] : List Hash256).length
    ∧ ∃ v, CalcHash 2 0 [Hash256.leaf 0, Hash256.leaf 1, Hash256.leaf 2] = Except.ok v := by
  have hh : CalcTreeHeight [Hash256.leaf 0, Hash256.leaf 1, Hash256.leaf 2] = 2 := by
    simp [CalcTreeHeight, CalcTreeHeightAux_succ, CalcTreeHeightAux_le_one]
  exact ⟨by simp, le_of_eq hh.symm, by decide,
    claim_C10_total_in_bounds [Hash256.leaf 0, Hash256.leaf 1, Hash256.leaf 2] (by simp)
      2 (le_of_eq hh.symm) 0 (by decide)⟩

end Merkle
